import Mathlib

/-
Verification development for the word-service repository (src/main.py).

The document-mutation core is embedded shallowly:
  * a document is a list of body-level blocks, each a paragraph (with its
    text) or a table (tagged by an identifier);
  * `delete_table_after_heading` and `insert_table_after_heading` mirror the
    functions of the same names in src/main.py (python-docx's
    `doc.paragraphs` enumerates body-level paragraphs in document order, and
    `p.getnext()` walks the following body-level siblings);
  * the vertical-merge pass of `create_chinese_table` / `create_english_table`
    is embedded as the list of (startRow, rowCount) merge spans it issues for
    the sequence-number column (the adjacent location column receives the
    identical spans);
  * `calculate_text_width` / `auto_fit_column_widths` are embedded over ℚ
    (the source's float arithmetic is modelled exactly over the rationals);
  * the LineClassifier of spec §4.1 is absent from src/ and is modelled from
    the spec.

Python string semantics used below: `needle in hay` is substring
containment, `s.strip()` removes leading and trailing whitespace.
-/

namespace WordSvc

/-! ### Text primitives (python `in` and `.strip()` on character lists) -/

/-- `startsWithL l p` is python-style "l starts with p". -/
def startsWithL : List Char → List Char → Bool
  | _, [] => true
  | [], _ :: _ => false
  | a :: as, b :: bs => if a = b then startsWithL as bs else false

/-- `containsSub p l` is python's `p in l` (substring containment). -/
def containsSub (p : List Char) : List Char → Bool
  | [] => p.isEmpty
  | c :: rest => startsWithL (c :: rest) p || containsSub p rest

/-- Python's `needle in hay` on strings. -/
def pyIn (needle hay : String) : Bool := containsSub needle.data hay.data

/-- Leading-whitespace strip. -/
def stripL (l : List Char) : List Char := l.dropWhile Char.isWhitespace

/-- Trailing-whitespace strip. -/
def stripR (l : List Char) : List Char := (l.reverse.dropWhile Char.isWhitespace).reverse

/-- Python's `str.strip()`. -/
def pyStrip (l : List Char) : List Char := stripR (stripL l)

/-- The first character (if any) is not whitespace. -/
def headNotWs (l : List Char) : Bool :=
  match l.head? with
  | some c => !c.isWhitespace
  | none => true

/-- Neither end of the list is whitespace (the list equals its own strip). -/
def trimmedB (l : List Char) : Bool := headNotWs l && headNotWs l.reverse

/-! ### Document model and heading-anchored operations (src/main.py:790-868) -/

/-- A body-level block: a paragraph with its full text, or a table.
Tables carry a tag so that distinct tables can be told apart. -/
inductive Block where
  | para : String → Block
  | tbl : Nat → Block
deriving DecidableEq, Repr

/-- Whether a block is a table element (`next_element.tag.endswith('}tbl')`). -/
def isTbl : Block → Bool
  | .tbl _ => true
  | .para _ => false

/-- The heading match of `delete_table_after_heading`:
`heading_text in paragraph.text` on the raw (unstripped) text; tables never
match (`doc.paragraphs` yields paragraphs only). -/
def isMatchPara (h : String) : Block → Bool
  | .para t => containsSub h.data t.data
  | .tbl _ => false

/-- Remove the first table among the blocks (the `while next_element`
walk of src/main.py:808-816); `none` when no table follows. -/
def removeFirstTbl : List Block → Option (List Block)
  | [] => none
  | b :: bs => if isTbl b then some bs else (removeFirstTbl bs).map (b :: ·)

/-- src/main.py:790-818 `delete_table_after_heading`: find the first
paragraph whose raw text contains `h`; remove the first table after it.
Returns the resulting document and the function's boolean result. -/
def delete_table_after_heading : List Block → String → List Block × Bool
  | [], _ => ([], false)
  | b :: bs, h =>
    if isMatchPara h b then
      match removeFirstTbl bs with
      | none => (b :: bs, false)
      | some bs' => (b :: bs', true)
    else
      let r := delete_table_after_heading bs h
      (b :: r.1, r.2)

/-- src/main.py:827-829: the candidate headings tried by
`insert_table_after_heading`. -/
def possible_headings (h : String) : List String :=
  if h = "Daily Construction Statistics Table" then
    [h, "Daily Construction Statistics", "2. On-site Construction Activities",
     "Construction Activities"]
  else [h]

/-- src/main.py:832-838: try `delete_table_after_heading` for each candidate
heading in order, stopping at the first successful deletion. -/
def deleteLoop (doc : List Block) : List String → List Block
  | [] => doc
  | h :: hs =>
    let r := delete_table_after_heading doc h
    if r.2 then r.1 else deleteLoop doc hs

/-- The heading match of the lookup phase of `insert_table_after_heading`
(src/main.py:843-851): any candidate heading contained in the paragraph's
stripped text. -/
def matchesAnyStripped (hs : List String) : Block → Bool
  | .para t => hs.any (fun h => containsSub h.data (pyStrip t.data))
  | .tbl _ => false

/-- Index of the anchor paragraph chosen by the lookup phase: the first
block whose stripped text contains some candidate heading. -/
def findAnchorIdx (hs : List String) : List Block → Option Nat
  | [] => none
  | b :: bs =>
    if matchesAnyStripped hs b then some 0 else (findAnchorIdx hs bs).map (· + 1)

/-- Insert table `t` directly after the anchor paragraph (`p.addnext(tbl)`);
`none` when no block matches. -/
def insertAfterAnchor (hs : List String) (t : Nat) : List Block → Option (List Block)
  | [] => none
  | b :: bs =>
    if matchesAnyStripped hs b then some (b :: Block.tbl t :: bs)
    else (insertAfterAnchor hs t bs).map (b :: ·)

/-- src/main.py:821-868 `insert_table_after_heading`: optional deletion pass
over the candidate headings, then lookup of the anchor paragraph and
insertion of the new table right after it. Returns the resulting document
and the function's boolean result. -/
def insert_table_after_heading (doc : List Block) (h : String) (t : Nat)
    (deleteExisting : Bool) : List Block × Bool :=
  let hs := possible_headings h
  let d1 := if deleteExisting then deleteLoop doc hs else doc
  match insertAfterAnchor hs t d1 with
  | none => (d1, false)
  | some d2 => (d2, true)

/-- The claim's lookup order (spec §4.3): try the first candidate across the
whole document before consulting the next candidate. -/
def findAnchorSpec (doc : List Block) : List String → Option Nat
  | [] => none
  | h :: hs =>
    match findAnchorIdx [h] doc with
    | some i => some i
    | none => findAnchorSpec doc hs

/-- Single-heading insertion, no aliases: delete the first table after the
heading (if requested), then insert after the first paragraph whose stripped
text contains the heading. -/
def insertSingle (doc : List Block) (h : String) (t : Nat)
    (deleteExisting : Bool) : List Block × Bool :=
  let d1 := if deleteExisting then (delete_table_after_heading doc h).1 else doc
  match insertAfterAnchor [h] t d1 with
  | none => (d1, false)
  | some d2 => (d2, true)

/-! ### Vertical merge spans of the generated-table builders
(src/main.py:573-659 `create_chinese_table`, 664-787 `create_english_table`)

A span `(s, c)` merges rows `s, s+1, …, s+c-1` of the sequence-number
column (row 0 is the header row; data rows start at 1). The location column
receives the identical span list, so one column's spans describe the pass. -/

/-- Number of occurrences of `s` in the list (`merge_info` of
src/main.py:574-577: total count over the whole input, not run length). -/
def countSeq (s : Nat) : List Nat → Nat
  | [] => 0
  | x :: xs => (if x = s then 1 else 0) + countSeq s xs

/-- The walk of src/main.py:619-659: at the first occurrence of each
sequence number, a span of length `countSeq` is issued when that count
exceeds 1; later occurrences are skipped via `done_seqs`. -/
def chineseSpansAux (total : List Nat) : List Nat → Nat → List Nat → List (Nat × Nat)
  | [], _, _ => []
  | s :: rest, rowIdx, done =>
    if s ∈ done then chineseSpansAux total rest (rowIdx + 1) done
    else
      (if 1 < countSeq s total then [(rowIdx, countSeq s total)] else []) ++
      chineseSpansAux total rest (rowIdx + 1) (s :: done)

/-- Merge spans issued by `create_chinese_table` on records with the given
sequence numbers. -/
def chineseMergeSpans (data : List Nat) : List (Nat × Nat) :=
  chineseSpansAux data data 1 []

/-- The run-tracking loop of src/main.py:750-785: consecutive records with
equal, present sequence keys accumulate; a group of more than one row is
merged when it ends. `none` models a record whose dict lacks `seq`
(`item.get('seq')` is `None`), which never extends a run. -/
def englishSpansAux : List (Option Nat) → Option Nat → Nat → Nat → Nat → List (Nat × Nat)
  | [], _, startIdx, count, _ => if 1 < count then [(startIdx, count)] else []
  | s :: rest, current, startIdx, count, rowIdx =>
    if s = current ∧ s.isSome then
      englishSpansAux rest current startIdx (count + 1) (rowIdx + 1)
    else
      (if 1 < count then [(startIdx, count)] else []) ++
      englishSpansAux rest s rowIdx 1 (rowIdx + 1)

/-- Merge spans issued by `create_english_table` (the pass only runs when
`len(data) > 1`, src/main.py:750). -/
def englishMergeSpans (data : List (Option Nat)) : List (Nat × Nat) :=
  if 1 < data.length then englishSpansAux data none 1 0 1 else []

/-- Length of the leading run of elements equal to `s`, counted only when
`s` is a mergeable key. -/
def takeRun {K : Type} [DecidableEq K] (m : K → Bool) (s : K) : List K → Nat
  | [] => 0
  | x :: xs => if m s = true ∧ x = s then 1 + takeRun m s xs else 0

/-- Maximal-run merge spans, the policy stated by spec §4.5: each maximal
run of consecutive records sharing a mergeable key, of length at least two,
yields one span; rows are numbered from `rowIdx`. -/
def runSpans {K : Type} [DecidableEq K] (m : K → Bool) : List K → Nat → List (Nat × Nat)
  | [], _ => []
  | s :: rest, rowIdx =>
    (if 0 < takeRun m s rest ∧ m s = true then [(rowIdx, 1 + takeRun m s rest)] else []) ++
    runSpans m (rest.drop (takeRun m s rest)) (rowIdx + 1 + takeRun m s rest)
termination_by l _ => l.length
decreasing_by
  simp only [List.length_cons, List.length_drop]
  omega

/-- Mergeable keys of the English builder: a row merges only when its dict
has a `seq` (`seq is not None`). -/
def engMergeable : Option Nat → Bool := Option.isSome

/-- Mergeable keys of the Chinese builder: every `TableRow.seq` is an int,
so every key is mergeable. -/
def cnMergeable : Nat → Bool := fun _ => true

/-- Spans listed left to right, starting at or after `lo`, nonempty and
pairwise separated. -/
def spansOrderedFrom : Nat → List (Nat × Nat) → Prop
  | _, [] => True
  | lo, sp :: rest => lo ≤ sp.1 ∧ 1 ≤ sp.2 ∧ spansOrderedFrom (sp.1 + sp.2) rest

/-- Two vertical spans overlap when some row lies in both
(for spans of positive length this is the interval-intersection test). -/
def spansOverlap (a b : Nat × Nat) : Prop :=
  a.1 < b.1 + b.2 ∧ b.1 < a.1 + a.2

/-- Records with equal sequence keys are consecutive: the list is a
concatenation of runs with pairwise distinct keys. -/
inductive Grouped : List Nat → Prop where
  | nil : Grouped []
  | cons (s k : Nat) (rest : List Nat) : 0 < k → s ∉ rest → Grouped rest →
      Grouped (List.replicate k s ++ rest)

/-! ### Column-width estimation (src/main.py:492-557) -/

/-- CJK ideograph test of src/main.py:498 (`'一' <= c <= '鿿'`). -/
def isCJK (c : Char) : Bool := decide (0x4e00 ≤ c.toNat ∧ c.toNat ≤ 0x9fff)

/-- src/main.py:492-504 `calculate_text_width`; the caller-facing default of
the source is `is_chinese = False`, under which every character weighs
0.25 cm and the CJK count computed on line 498 is ignored. -/
def calculate_text_width (text : List Char) (is_chinese : Bool) : ℚ :=
  let cn : ℚ := (text.filter isCJK).length
  let en : ℚ := (text.length - (text.filter isCJK).length : ℕ)
  if is_chinese then cn * (42 / 100) + en * (22 / 100)
  else (text.length : ℚ) * (25 / 100)

/-- The per-column widths computed by src/main.py:530-547 before the budget
check: max of header width (+0.5) and the largest data-cell width (+0.3),
clamped into `[min, max]`. Absent list entries take the source's default
minimum 1.0 and maximum 6.0. Every call of `calculate_text_width` in the
source's loop leaves `is_chinese` at its default `False`. -/
def preScaleWidths (headers : List (List Char)) (dataRows : List (List (List Char)))
    (minWidths maxWidths : List ℚ) : List ℚ :=
  (List.range headers.length).map (fun i =>
    let headerWidth := calculate_text_width (headers.getD i []) false + 1 / 2
    let maxDataWidth := dataRows.foldl
      (fun acc row =>
        if i < row.length then max acc (calculate_text_width (row.getD i []) false + 3 / 10)
        else acc) 0
    max (minWidths.getD i 1) (min (maxWidths.getD i 6) (max headerWidth maxDataWidth)))

/-- src/main.py:507-557 `auto_fit_column_widths`, returning the final column
widths: when the clamped widths sum beyond the budget, every column is
multiplied by `total / sum` (src/main.py:550-554). -/
def auto_fit_column_widths (headers : List (List Char)) (dataRows : List (List (List Char)))
    (minWidths maxWidths : List ℚ) (totalWidth : ℚ) : List ℚ :=
  let colWidths := preScaleWidths headers dataRows minWidths maxWidths
  if totalWidth < colWidths.sum then
    colWidths.map (fun w => w * (totalWidth / colWidths.sum))
  else colWidths

/-! ### LineClassifier (spec §4.1; not present under src/) -/

/-- The four categories of spec §4.1. -/
inductive LineCategory where
  | sectionHeading
  | statKeyword
  | subItem
  | body
deriving DecidableEq, Repr

/-- Modelled from the spec: the cleaned copy of a line (spec §4.1 — the
LineClassifier is code of this repository missing from src/): leading and
embedded markdown emphasis markers, spaces and tabs are stripped. -/
def cleanLine (l : List Char) : List Char :=
  l.filter (fun c => !(c == '*' || c == '_' || c == ' ' || c == '\t'))

/-- After one or more digits, a full- or half-width delimiter follows. -/
def afterDigitsDelim : List Char → Bool
  | [] => false
  | c :: rest => if c.isDigit then afterDigitsDelim rest else decide (c = '、' ∨ c = '.')

/-- Modelled from the spec: rule 1 of §4.1, `^<digits><delimiter>`. -/
def matchesSectionHeading : List Char → Bool
  | [] => false
  | c :: rest => c.isDigit && afterDigitsDelim rest

/-- Modelled from the spec: the fixed keyword set of rule 2 of §4.1,
in its fixed priority order. -/
def statKeywords : List (List Char) :=
  ["人员投入".data, "设备投入".data, "累计工程量".data, "人员：".data, "设备：".data]

/-- After zero or more digits, a closing parenthesis follows. -/
def closeAfterDigits : List Char → Bool
  | [] => false
  | c :: rest => if c.isDigit then closeAfterDigits rest else decide (c = ')' ∨ c = '）')

/-- Modelled from the spec: rule 3 of §4.1, `^[(（]<digits>[)）]`. -/
def matchesSubItem : List Char → Bool
  | c :: d :: rest => decide (c = '(' ∨ c = '（') && (d.isDigit && closeAfterDigits rest)
  | _ => false

/-- Modelled from the spec: the category, decided on the cleaned text by the
priority order of §4.1 (section heading, then statistics keyword, then
sub-item, then body). -/
def categoryOf (cleaned : List Char) : LineCategory :=
  if matchesSectionHeading cleaned then .sectionHeading
  else if (statKeywords.find? (fun k => containsSub k cleaned)).isSome then .statKeyword
  else if matchesSubItem cleaned then .subItem
  else .body

/-- Result of classification: category, whether the paragraph gets the
2-character first-line indent, and the `(text, bold)` segments. -/
structure ClassifyResult where
  category : LineCategory
  indentTwoChars : Bool
  segments : List (List Char × Bool)
deriving DecidableEq, Repr

/-- Split the raw line just after its first full- or half-width colon. -/
def splitAfterFirstColon : List Char → Option (List Char × List Char)
  | [] => none
  | c :: rest =>
    if c = '：' ∨ c = ':' then some ([c], rest)
    else (splitAfterFirstColon rest).map (fun p => (c :: p.1, p.2))

/-- Split the raw line just after the first occurrence of `kw`. -/
def splitAfterKeyword (kw : List Char) : List Char → Option (List Char × List Char)
  | [] => if kw.isEmpty then some ([], []) else none
  | c :: rest =>
    if startsWithL (c :: rest) kw then some (kw, (c :: rest).drop kw.length)
    else (splitAfterKeyword kw rest).map (fun p => (c :: p.1, p.2))

/-- Modelled from the spec: `classify` of §4.1 (the LineClassifier is code
of this repository missing from src/). The category is computed on the
cleaned line; segments preserve the raw text. For a statistics keyword the
split point is just after the first colon of the line, else just after the
matched keyword; the part before the split is bold. -/
def classify (raw : List Char) : ClassifyResult :=
  let cleaned := cleanLine raw
  match categoryOf cleaned with
  | .sectionHeading => ⟨.sectionHeading, false, [(raw, true)]⟩
  | .statKeyword =>
    let kw := ((statKeywords.find? (fun k => containsSub k cleaned)).getD [])
    let split :=
      match splitAfterFirstColon raw with
      | some p => some p
      | none => splitAfterKeyword kw raw
    match split with
    | some p => ⟨.statKeyword, true, [(p.1, true), (p.2, false)]⟩
    | none => ⟨.statKeyword, true, [(raw, true)]⟩
  | .subItem => ⟨.subItem, true, [(raw, false)]⟩
  | .body => ⟨.body, true, [(raw, false)]⟩

/-! ## Theorems -/

/-! ### Behaviour of `delete_table_after_heading` -/

/-- A successful `removeFirstTbl` splits the list at its first table. -/
theorem removeFirstTbl_some : ∀ (bs bs' : List Block), removeFirstTbl bs = some bs' →
    ∃ mid id post, bs = mid ++ Block.tbl id :: post ∧ bs' = mid ++ post ∧
      ∀ x ∈ mid, isTbl x = false := by
  intro bs
  induction bs with
  | nil => intro bs' h; simp [removeFirstTbl] at h
  | cons b rest ih =>
    intro bs' h
    cases hb : isTbl b with
    | true =>
      cases b with
      | para t => simp [isTbl] at hb
      | tbl id =>
        simp only [removeFirstTbl, isTbl, if_true] at h
        exact ⟨[], id, rest, rfl, by simpa using h.symm, by intro x hx; simp at hx⟩
    | false =>
      simp only [removeFirstTbl, hb, Bool.false_eq_true, if_false, Option.map_eq_some'] at h
      obtain ⟨r', hr', hbs'⟩ := h
      obtain ⟨mid, id, post, h1, h2, h3⟩ := ih r' hr'
      refine ⟨b :: mid, id, post, by simp [h1], by simp [h2, hbs'.symm], ?_⟩
      intro x hx
      rcases List.mem_cons.mp hx with hx | hx
      · simpa [hx] using hb
      · exact h3 x hx

/-- `removeFirstTbl` removes the table at the head of a table-free block
run, leaving everything else in place. -/
theorem removeFirstTbl_build : ∀ (mid : List Block) (id : Nat) (post : List Block),
    (∀ x ∈ mid, isTbl x = false) →
    removeFirstTbl (mid ++ Block.tbl id :: post) = some (mid ++ post) := by
  intro mid id post hmid
  induction mid with
  | nil => simp [removeFirstTbl, isTbl]
  | cons b rest ih =>
    have hb : isTbl b = false := hmid b (by simp)
    have htail : ∀ x ∈ rest, isTbl x = false := fun x hx => hmid x (by simp [hx])
    simp [removeFirstTbl, hb, ih htail]

/-- When `delete_table_after_heading` reports `False`, the document is
untouched. -/
theorem delete_noop : ∀ (doc : List Block) (h : String),
    (delete_table_after_heading doc h).2 = false →
    (delete_table_after_heading doc h).1 = doc := by
  intro doc h
  induction doc with
  | nil => intro _; rfl
  | cons b rest ih =>
    intro hfalse
    cases hm : isMatchPara h b with
    | true =>
      simp only [delete_table_after_heading, hm, if_true] at hfalse ⊢
      cases hr : removeFirstTbl rest with
      | none => simp [hr]
      | some bs' => simp [hr] at hfalse
    | false =>
      simp only [delete_table_after_heading, hm, Bool.false_eq_true, if_false] at hfalse ⊢
      simp [ih hfalse]

/-- A successful deletion decomposes the document as: blocks before the
first matching paragraph, the matching paragraph, table-free blocks, the
removed table, and the remainder; only the table disappears. -/
theorem delete_decomp : ∀ (doc : List Block) (h : String) (d : List Block),
    delete_table_after_heading doc h = (d, true) →
    ∃ pre p mid id post,
      doc = pre ++ Block.para p :: (mid ++ Block.tbl id :: post) ∧
      d = pre ++ Block.para p :: (mid ++ post) ∧
      containsSub h.data p.data = true ∧
      (∀ b ∈ pre, isMatchPara h b = false) ∧
      (∀ b ∈ mid, isTbl b = false) := by
  intro doc h
  induction doc with
  | nil => intro d hd; simp [delete_table_after_heading] at hd
  | cons b rest ih =>
    intro d hd
    cases hm : isMatchPara h b with
    | true =>
      cases b with
      | tbl id => simp [isMatchPara] at hm
      | para p =>
        simp only [delete_table_after_heading, hm, if_true] at hd
        cases hr : removeFirstTbl rest with
        | none => simp [hr] at hd
        | some bs' =>
          simp only [hr, Prod.mk.injEq] at hd
          obtain ⟨mid, id, post, h1, h2, h3⟩ := removeFirstTbl_some rest bs' hr
          refine ⟨[], p, mid, id, post, by simp [h1], ?_, ?_, ?_, h3⟩
          · simp [← hd.1, h2]
          · simpa [isMatchPara] using hm
          · intro x hx; simp at hx
    | false =>
      simp only [delete_table_after_heading, hm, Bool.false_eq_true, if_false,
        Prod.mk.injEq] at hd
      have htail : delete_table_after_heading rest h =
          ((delete_table_after_heading rest h).1, true) := by
        rw [← hd.2]
      obtain ⟨pre, p, mid, id, post, h1, h2, h3, h4, h5⟩ :=
        ih (delete_table_after_heading rest h).1 htail
      refine ⟨b :: pre, p, mid, id, post, by simp [h1], by simp [← hd.1, h2], h3, ?_, h5⟩
      intro x hx
      rcases List.mem_cons.mp hx with hx | hx
      · simpa [hx] using hm
      · exact h4 x hx

/-- Conversely, on such a decomposition the deletion succeeds and removes
exactly the first table after the first matching heading paragraph. -/
theorem delete_build : ∀ (pre : List Block) (p : String) (mid : List Block) (id : Nat)
    (post : List Block) (h : String),
    (∀ b ∈ pre, isMatchPara h b = false) →
    containsSub h.data p.data = true →
    (∀ b ∈ mid, isTbl b = false) →
    delete_table_after_heading (pre ++ Block.para p :: (mid ++ Block.tbl id :: post)) h =
      (pre ++ Block.para p :: (mid ++ post), true) := by
  intro pre p mid id post h hpre hp hmid
  induction pre with
  | nil =>
    have hm : isMatchPara h (Block.para p) = true := by simpa [isMatchPara] using hp
    simp [delete_table_after_heading, hm, removeFirstTbl_build mid id post hmid]
  | cons b rest ih =>
    have hb : isMatchPara h b = false := hpre b (by simp)
    have htail : ∀ x ∈ rest, isMatchPara h x = false := fun x hx => hpre x (by simp [hx])
    simp [delete_table_after_heading, hb, ih htail]

/-- A list with no table yields no table to remove. -/
theorem removeFirstTbl_none_of_clean : ∀ (bs : List Block),
    (∀ x ∈ bs, isTbl x = false) → removeFirstTbl bs = none := by
  intro bs
  induction bs with
  | nil => intro _; rfl
  | cons b rest ih =>
    intro hclean
    have hb : isTbl b = false := hclean b (by simp)
    have htail : ∀ x ∈ rest, isTbl x = false := fun x hx => hclean x (by simp [hx])
    simp [removeFirstTbl, hb, ih htail]

/-- When no table at all follows the first matching heading paragraph, the
deletion is a no-op reporting `False`. -/
theorem delete_build_none : ∀ (pre : List Block) (p : String) (rest : List Block)
    (h : String),
    (∀ b ∈ pre, isMatchPara h b = false) →
    containsSub h.data p.data = true →
    (∀ b ∈ rest, isTbl b = false) →
    delete_table_after_heading (pre ++ Block.para p :: rest) h =
      (pre ++ Block.para p :: rest, false) := by
  intro pre p rest h hpre hp hclean
  induction pre with
  | nil =>
    have hm : isMatchPara h (Block.para p) = true := by simpa [isMatchPara] using hp
    simp [delete_table_after_heading, hm, removeFirstTbl_none_of_clean rest hclean]
  | cons b bpre ih =>
    have hb : isMatchPara h b = false := hpre b (by simp)
    have htail : ∀ x ∈ bpre, isMatchPara h x = false := fun x hx => hpre x (by simp [hx])
    simp [delete_table_after_heading, hb, ih htail]

/-- C1 counterexample: with document `[heading paragraph, other paragraph,
table]` the structural sibling immediately following the matched heading is
a paragraph, yet the deletion step still removes the table further down and
reports `True` — refuting "if the immediate sibling is anything else,
nothing is deleted; a table that is not the immediate next sibling is never
removed". -/
theorem C1_cex :
    delete_table_after_heading [Block.para "h", Block.para "x", Block.tbl 3] "h" =
      ([Block.para "h", Block.para "x"], true) ∧
    isTbl (Block.para "x") = false := by
  exact ⟨by decide, rfl⟩

/-- C1 (amended): when `deleteExisting` is set, the deletion step removes
the first table block in document order after the matched heading paragraph,
at any distance — intervening non-table siblings do not stop it — and it
deletes nothing (reporting `False`) exactly when no table at all follows the
matched heading. -/
theorem C1_delete_first_following_table :
    (∀ (pre : List Block) (p : String) (mid : List Block) (id : Nat) (post : List Block)
      (h : String),
      (∀ b ∈ pre, isMatchPara h b = false) →
      containsSub h.data p.data = true →
      (∀ b ∈ mid, isTbl b = false) →
      delete_table_after_heading (pre ++ Block.para p :: (mid ++ Block.tbl id :: post)) h =
        (pre ++ Block.para p :: (mid ++ post), true)) ∧
    (∀ (pre : List Block) (p : String) (rest : List Block) (h : String),
      (∀ b ∈ pre, isMatchPara h b = false) →
      containsSub h.data p.data = true →
      (∀ b ∈ rest, isTbl b = false) →
      delete_table_after_heading (pre ++ Block.para p :: rest) h =
        (pre ++ Block.para p :: rest, false)) :=
  ⟨delete_build, delete_build_none⟩

/-- Closed instance of `C1_delete_first_following_table`: the first table
after the heading (two blocks down) is removed while a later table stays;
with only paragraphs after the heading nothing is removed. -/
theorem C1_witness :
    delete_table_after_heading
        [Block.para "h", Block.para "x", Block.tbl 3, Block.tbl 4] "h" =
      ([Block.para "h", Block.para "x", Block.tbl 4], true) ∧
    delete_table_after_heading [Block.para "h", Block.para "x"] "h" =
      ([Block.para "h", Block.para "x"], false) := by
  constructor
  · exact C1_delete_first_following_table.1 [] "h" [Block.para "x"] 3 [Block.tbl 4] "h"
      (by intro b hb; simp at hb) (by decide) (by intro b hb; simp at hb; simp [hb, isTbl])
  · exact C1_delete_first_following_table.2 [] "h" [Block.para "x"] "h"
      (by intro b hb; simp at hb) (by decide) (by intro b hb; simp at hb; simp [hb, isTbl])

/-- C10: a single call of `delete_table_after_heading` removes at most one
table — the first table block in document order after the matched heading
paragraph — leaves every other block unchanged, and returns `True` exactly
when a matched paragraph exists with some table after it. -/
theorem C10_delete_frame : ∀ (doc : List Block) (h : String),
    ((delete_table_after_heading doc h).2 = false →
      (delete_table_after_heading doc h).1 = doc) ∧
    (∀ d, delete_table_after_heading doc h = (d, true) →
      ∃ pre p mid id post,
        doc = pre ++ Block.para p :: (mid ++ Block.tbl id :: post) ∧
        d = pre ++ Block.para p :: (mid ++ post) ∧
        containsSub h.data p.data = true ∧
        (∀ b ∈ pre, isMatchPara h b = false) ∧
        (∀ b ∈ mid, isTbl b = false)) ∧
    ((delete_table_after_heading doc h).2 = true ↔
      ∃ pre p mid id post,
        doc = pre ++ Block.para p :: (mid ++ Block.tbl id :: post) ∧
        containsSub h.data p.data = true ∧
        (∀ b ∈ pre, isMatchPara h b = false) ∧
        (∀ b ∈ mid, isTbl b = false)) := by
  intro doc h
  refine ⟨delete_noop doc h, fun d hd => delete_decomp doc h d hd, ?_, ?_⟩
  · intro htrue
    have hd : delete_table_after_heading doc h =
        ((delete_table_after_heading doc h).1, true) := by
      rw [← htrue]
    obtain ⟨pre, p, mid, id, post, h1, _, h3, h4, h5⟩ :=
      delete_decomp doc h (delete_table_after_heading doc h).1 hd
    exact ⟨pre, p, mid, id, post, h1, h3, h4, h5⟩
  · rintro ⟨pre, p, mid, id, post, h1, h3, h4, h5⟩
    rw [h1, delete_build pre p mid id post h h4 h3 h5]

/-- Closed instance of `C10_delete_frame`: a no-match document is returned
unchanged, and a successful call yields the one-table-removed
decomposition. -/
theorem C10_witness :
    (delete_table_after_heading [Block.para "a", Block.tbl 9] "z").1 =
      [Block.para "a", Block.tbl 9] ∧
    (∃ pre p mid id post,
      [Block.para "h", Block.tbl 0] = pre ++ Block.para p :: (mid ++ Block.tbl id :: post) ∧
      [Block.para "h"] = pre ++ Block.para p :: (mid ++ post) ∧
      containsSub "h".data p.data = true ∧
      (∀ b ∈ pre, isMatchPara "h" b = false) ∧
      (∀ b ∈ mid, isTbl b = false)) := by
  constructor
  · exact (C10_delete_frame [Block.para "a", Block.tbl 9] "z").1 (by decide)
  · exact (C10_delete_frame [Block.para "h", Block.tbl 0] "h").2.1 [Block.para "h"] (by decide)

/-! ### Alias activation and anchor lookup of `insert_table_after_heading` -/

/-- With a single candidate heading, the deletion pass is exactly one
`delete_table_after_heading` call. -/
theorem deleteLoop_single : ∀ (doc : List Block) (h : String),
    deleteLoop doc [h] = (delete_table_after_heading doc h).1 := by
  intro doc h
  simp only [deleteLoop]
  cases hr : (delete_table_after_heading doc h).2 with
  | true => simp [hr]
  | false => simp [hr, delete_noop doc h hr]

/-- C9: fallback aliases are consulted only for the exact heading
"Daily Construction Statistics Table", for which the fixed alias list is
appended in order; for every other heading both the deletion pass and the
lookup run on the heading alone. -/
theorem C9_alias_activation : ∀ (h : String) (doc : List Block) (t : Nat) (b : Bool),
    (h = "Daily Construction Statistics Table" →
      possible_headings h = [h, "Daily Construction Statistics",
        "2. On-site Construction Activities", "Construction Activities"]) ∧
    (h ≠ "Daily Construction Statistics Table" →
      possible_headings h = [h] ∧
      insert_table_after_heading doc h t b = insertSingle doc h t b) := by
  intro h doc t b
  constructor
  · intro hh; simp [possible_headings, hh]
  · intro hh
    have hp : possible_headings h = [h] := by simp [possible_headings, hh]
    refine ⟨hp, ?_⟩
    simp only [insert_table_after_heading, insertSingle, hp]
    cases b <;> simp [deleteLoop_single]

/-- Closed instance of `C9_alias_activation`: the special heading activates
the fixed alias list; a plain heading makes the call coincide with the
single-heading routine. -/
theorem C9_witness :
    possible_headings "Daily Construction Statistics Table" =
      ["Daily Construction Statistics Table", "Daily Construction Statistics",
       "2. On-site Construction Activities", "Construction Activities"] ∧
    (possible_headings "X" = ["X"] ∧
      insert_table_after_heading [Block.para "X", Block.tbl 1] "X" 5 true =
        insertSingle [Block.para "X", Block.tbl 1] "X" 5 true) := by
  constructor
  · exact (C9_alias_activation "Daily Construction Statistics Table" [] 0 false).1 rfl
  · exact (C9_alias_activation "X" [Block.para "X", Block.tbl 1] 5 true).2 (by decide)

/-- `insertAfterAnchor` places the new table directly after the block found
by `findAnchorIdx`. -/
theorem insertAfterAnchor_eq : ∀ (hs : List String) (t : Nat) (doc : List Block),
    insertAfterAnchor hs t doc =
      (findAnchorIdx hs doc).map
        (fun i => doc.take (i + 1) ++ Block.tbl t :: doc.drop (i + 1)) := by
  intro hs t doc
  induction doc with
  | nil => rfl
  | cons b bs ih =>
    cases hm : matchesAnyStripped hs b with
    | true => simp [insertAfterAnchor, findAnchorIdx, hm]
    | false =>
      simp only [insertAfterAnchor, findAnchorIdx, hm, Bool.false_eq_true, if_false, ih]
      cases h : findAnchorIdx hs bs with
      | none => rfl
      | some i => simp [List.take_succ_cons, List.drop_succ_cons]

/-- The anchor index is the first block matching some candidate heading. -/
theorem findAnchorIdx_first : ∀ (hs : List String) (doc : List Block) (i : Nat),
    findAnchorIdx hs doc = some i →
    matchesAnyStripped hs (doc.getD i (Block.tbl 0)) = true ∧
    ∀ j, j < i → matchesAnyStripped hs (doc.getD j (Block.tbl 0)) = false := by
  intro hs doc
  induction doc with
  | nil => intro i h; simp [findAnchorIdx] at h
  | cons b bs ih =>
    intro i h
    cases hm : matchesAnyStripped hs b with
    | true =>
      simp only [findAnchorIdx, hm, if_true, Option.some.injEq] at h
      subst h
      exact ⟨by simpa using hm, fun j hj => absurd hj (by omega)⟩
    | false =>
      simp only [findAnchorIdx, hm, Bool.false_eq_true, if_false, Option.map_eq_some'] at h
      obtain ⟨i', hi', rfl⟩ := h
      obtain ⟨h1, h2⟩ := ih i' hi'
      refine ⟨by simpa using h1, ?_⟩
      intro j hj
      cases j with
      | zero => simpa using hm
      | succ j' => simpa using h2 j' (by omega)

/-- No anchor index means no block matches any candidate heading. -/
theorem findAnchorIdx_none : ∀ (hs : List String) (doc : List Block),
    findAnchorIdx hs doc = none → ∀ b ∈ doc, matchesAnyStripped hs b = false := by
  intro hs doc
  induction doc with
  | nil => intro _ b hb; simp at hb
  | cons c bs ih =>
    intro h b hb
    cases hm : matchesAnyStripped hs c with
    | true => simp [findAnchorIdx, hm] at h
    | false =>
      simp only [findAnchorIdx, hm, Bool.false_eq_true, if_false,
        Option.map_eq_none'] at h
      rcases List.mem_cons.mp hb with rfl | hb
      · exact hm
      · exact ih h b hb

/-- The claim's document-wide lookup order collapses to the code's lookup
when there is a single candidate. -/
theorem findAnchorSpec_single : ∀ (doc : List Block) (h : String),
    findAnchorSpec doc [h] = findAnchorIdx [h] doc := by
  intro doc h
  simp only [findAnchorSpec]
  cases findAnchorIdx [h] doc <;> rfl

/-- C2 counterexample: with heading "Daily Construction Statistics Table"
(which activates the aliases) and a document whose first paragraph contains
only the alias "Construction Activities" while its second paragraph contains
the heading text itself, the code anchors at the first paragraph — the
alias wins over a later occurrence of the full heading text, refuting
"headingText is tried fully across the whole document before any alias is
considered". -/
theorem C2_cex :
    insert_table_after_heading
        [Block.para "Construction Activities",
         Block.para "Daily Construction Statistics Table"]
        "Daily Construction Statistics Table" 7 false =
      ([Block.para "Construction Activities", Block.tbl 7,
        Block.para "Daily Construction Statistics Table"], true) ∧
    containsSub "Daily Construction Statistics Table".data
      (pyStrip "Construction Activities".data) = false ∧
    containsSub "Daily Construction Statistics Table".data
      (pyStrip "Daily Construction Statistics Table".data) = true := by
  refine ⟨by decide, by decide, by decide⟩

/-- C2 (amended): the insertion anchor is the first paragraph in document
order whose stripped text contains the heading text *or any active alias* —
candidates are tried per paragraph, so an earlier paragraph matching only an
alias takes precedence over a later paragraph containing the heading text;
when no anchor exists the document is unchanged, and for a lookup with no
aliases the code's order coincides with the claimed
heading-text-first order. -/
theorem C2_anchor_is_first_combined_match : ∀ (doc : List Block) (h : String) (t i : Nat),
    (findAnchorIdx (possible_headings h) doc = some i →
      insert_table_after_heading doc h t false =
        (doc.take (i + 1) ++ Block.tbl t :: doc.drop (i + 1), true) ∧
      matchesAnyStripped (possible_headings h) (doc.getD i (Block.tbl 0)) = true ∧
      (∀ j, j < i →
        matchesAnyStripped (possible_headings h) (doc.getD j (Block.tbl 0)) = false)) ∧
    (findAnchorIdx (possible_headings h) doc = none →
      insert_table_after_heading doc h t false = (doc, false)) ∧
    findAnchorSpec doc [h] = findAnchorIdx [h] doc := by
  intro doc h t i
  refine ⟨?_, ?_, findAnchorSpec_single doc h⟩
  · intro hi
    obtain ⟨h1, h2⟩ := findAnchorIdx_first (possible_headings h) doc i hi
    refine ⟨?_, h1, h2⟩
    simp [insert_table_after_heading, insertAfterAnchor_eq, hi]
  · intro hnone
    simp [insert_table_after_heading, insertAfterAnchor_eq, hnone]

/-- Closed instance of `C2_anchor_is_first_combined_match`: the table lands
right after the first matching paragraph (index 1 here, past a table
block), and with no matching paragraph the document is unchanged. -/
theorem C2_witness :
    insert_table_after_heading [Block.tbl 9, Block.para "abc"] "b" 7 false =
      ([Block.tbl 9, Block.para "abc", Block.tbl 7], true) ∧
    insert_table_after_heading [Block.para "zzz"] "b" 7 false =
      ([Block.para "zzz"], false) := by
  constructor
  · exact ((C2_anchor_is_first_combined_match [Block.tbl 9, Block.para "abc"] "b" 7 1).1
      (by decide)).1
  · exact (C2_anchor_is_first_combined_match [Block.para "zzz"] "b" 7 0).2.1 (by decide)

/-! ### Substring containment versus stripping -/

/-- The empty needle is contained in every haystack. -/
theorem containsSub_nil : ∀ (l : List Char), containsSub [] l = true := by
  intro l
  cases l with
  | nil => rfl
  | cons c rest => simp [containsSub, startsWithL]

/-- Being a starting segment, as a decomposition. -/
theorem startsWithL_iff : ∀ (l p : List Char), startsWithL l p = true ↔ ∃ t, l = p ++ t := by
  intro l p
  induction p generalizing l with
  | nil => simp [startsWithL]
  | cons b bs ih =>
    cases l with
    | nil => simp [startsWithL]
    | cons a as =>
      by_cases hab : a = b
      · subst hab
        simp [startsWithL, ih]
      · simp [startsWithL, hab]

/-- Substring containment, as a decomposition of the haystack. -/
theorem containsSub_iff : ∀ (p l : List Char),
    containsSub p l = true ↔ ∃ a b, l = a ++ (p ++ b) := by
  intro p l
  induction l with
  | nil =>
    simp only [containsSub, List.isEmpty_iff]
    constructor
    · rintro rfl; exact ⟨[], [], rfl⟩
    · rintro ⟨a, b, hab⟩
      rcases List.append_eq_nil.mp hab.symm with ⟨rfl, h2⟩
      exact (List.append_eq_nil.mp h2).1
  | cons c rest ih =>
    simp only [containsSub, Bool.or_eq_true, startsWithL_iff, ih]
    constructor
    · rintro (⟨t, ht⟩ | ⟨a, b, hab⟩)
      · exact ⟨[], t, by simpa using ht⟩
      · exact ⟨c :: a, b, by simp [hab]⟩
    · rintro ⟨a, b, hab⟩
      cases a with
      | nil => exact Or.inl ⟨b, by simpa using hab⟩
      | cons a0 as =>
        simp only [List.cons_append, List.cons.injEq] at hab
        exact Or.inr ⟨as, b, hab.2⟩

/-- `dropWhile` over an append: either the first part is consumed entirely,
or dropping stops inside it. -/
theorem dropWhile_app : ∀ (pred : Char → Bool) (a b : List Char),
    List.dropWhile pred (a ++ b) =
      if (List.dropWhile pred a).isEmpty then List.dropWhile pred b
      else List.dropWhile pred a ++ b := by
  intro pred a b
  induction a with
  | nil => simp
  | cons x a' ih =>
    cases hx : pred x with
    | true => simpa [List.dropWhile_cons, hx] using ih
    | false => simp [List.dropWhile_cons, hx]

/-- `dropWhile` keeps a list whose head fails the predicate. -/
theorem dropWhile_head_false : ∀ (pred : Char → Bool) (c : Char) (l : List Char),
    pred c = false → List.dropWhile pred (c :: l) = c :: l := by
  intro pred c l hc
  simp [List.dropWhile_cons, hc]

/-- A contained, left-trimmed needle survives the leading strip. -/
theorem stripL_decomp : ∀ (c : Char) (q a b : List Char),
    c.isWhitespace = false →
    ∃ a', stripL (a ++ ((c :: q) ++ b)) = a' ++ ((c :: q) ++ b) := by
  intro c q a b hc
  unfold stripL
  rw [dropWhile_app]
  by_cases he : (List.dropWhile Char.isWhitespace a).isEmpty
  · refine ⟨[], ?_⟩
    rw [if_pos he]
    simpa using dropWhile_head_false Char.isWhitespace c (q ++ b) hc
  · exact ⟨List.dropWhile Char.isWhitespace a, by rw [if_neg he]⟩

/-- A contained, right-trimmed needle survives the trailing strip. -/
theorem stripR_decomp : ∀ (p a b : List Char) (c : Char) (q : List Char),
    p.reverse = c :: q → c.isWhitespace = false →
    ∃ b', stripR (a ++ (p ++ b)) = a ++ (p ++ b') := by
  intro p a b c q hrev hc
  unfold stripR
  have hsplit : (a ++ (p ++ b)).reverse = b.reverse ++ (p.reverse ++ a.reverse) := by
    simp
  rw [hsplit, hrev, dropWhile_app]
  by_cases he : (List.dropWhile Char.isWhitespace b.reverse).isEmpty
  · refine ⟨[], ?_⟩
    rw [if_pos he, List.cons_append,
      dropWhile_head_false Char.isWhitespace c (q ++ a.reverse) hc,
      ← List.cons_append, ← hrev]
    simp
  · refine ⟨(List.dropWhile Char.isWhitespace b.reverse).reverse, ?_⟩
    rw [if_neg he]
    rw [show (c :: q : List Char) = p.reverse from hrev.symm]
    simp

/-- A trimmed needle contained in the raw text is contained in the stripped
text (python: if `h` has no leading/trailing whitespace, `h in t` implies
`h in t.strip()`). -/
theorem containsSub_pyStrip_of_trimmed : ∀ (p l : List Char),
    trimmedB p = true → containsSub p l = true →
    containsSub p (pyStrip l) = true := by
  intro p l hp hl
  cases p with
  | nil => exact containsSub_nil _
  | cons c q =>
    have hp' : headNotWs (c :: q) = true ∧ headNotWs (c :: q : List Char).reverse = true := by
      simpa [trimmedB] using hp
    obtain ⟨hhead, hlast⟩ := hp'
    have hc : c.isWhitespace = false := by
      simpa [headNotWs] using hhead
    obtain ⟨a, b, hab⟩ := (containsSub_iff (c :: q) l).mp hl
    obtain ⟨a', ha'⟩ := stripL_decomp c q a b hc
    have hrevne : (c :: q : List Char).reverse ≠ [] := by simp
    obtain ⟨c', q', hrev⟩ := List.exists_cons_of_ne_nil hrevne
    have hc' : c'.isWhitespace = false := by
      have := hlast
      rw [hrev] at this
      simpa [headNotWs] using this
    obtain ⟨b', hb'⟩ := stripR_decomp (c :: q) a' b c' q' hrev hc'
    rw [containsSub_iff]
    exact ⟨a', b', by rw [pyStrip, hab, ha', hb']⟩

/-! ### C6: not-found implies an unmodified document -/

/-- The deletion pass either changes nothing or performs exactly one
successful `delete_table_after_heading` call for some candidate heading. -/
theorem deleteLoop_cases : ∀ (doc : List Block) (hs : List String),
    deleteLoop doc hs = doc ∨
    ∃ h' ∈ hs, delete_table_after_heading doc h' = (deleteLoop doc hs, true) := by
  intro doc hs
  induction hs with
  | nil => exact Or.inl rfl
  | cons h' hs' ih =>
    cases hr : (delete_table_after_heading doc h').2 with
    | true =>
      refine Or.inr ⟨h', by simp, ?_⟩
      have hdl : deleteLoop doc (h' :: hs') = (delete_table_after_heading doc h').1 := by
        simp [deleteLoop, hr]
      rw [hdl, ← hr]
    | false =>
      have hdl : deleteLoop doc (h' :: hs') = deleteLoop doc hs' := by
        simp [deleteLoop, hr]
      rw [hdl]
      rcases ih with h | ⟨h'', hmem, heq⟩
      · exact Or.inl h
      · exact Or.inr ⟨h'', by simp [hmem], heq⟩

/-- All candidate headings produced for a trimmed heading are trimmed
(the fixed aliases have no edge whitespace). -/
theorem possible_headings_trimmed : ∀ (h : String), trimmedB h.data = true →
    ∀ h' ∈ possible_headings h, trimmedB h'.data = true := by
  intro h hh h' hmem
  by_cases hspec : h = "Daily Construction Statistics Table"
  · rw [possible_headings, if_pos hspec] at hmem
    simp only [List.mem_cons, List.not_mem_nil, or_false] at hmem
    rcases hmem with rfl | rfl | rfl | rfl
    · exact hh
    · decide
    · decide
    · decide
  · rw [possible_headings, if_neg hspec] at hmem
    simp only [List.mem_cons, List.not_mem_nil, or_false] at hmem
    rw [hmem]
    exact hh

/-- C6 counterexample: the deletion phase matches the heading `" h"` against
the raw paragraph text `" h x"` while the lookup phase matches against the
stripped text `"h x"` — so with the edge-whitespace heading `" h"` the call
removes a table yet reports not-found, refuting "not-found implies the
document is returned unmodified". -/
theorem C6_cex :
    insert_table_after_heading [Block.para " h x", Block.tbl 0] " h" 5 true =
      ([Block.para " h x"], false) ∧
    ([Block.para " h x"] : List Block) ≠ [Block.para " h x", Block.tbl 0] := by
  exact ⟨by decide, by decide⟩

/-- C6 (amended): provided the heading has no leading or trailing
whitespace (the fixed aliases never do), a not-found report implies that the
document is returned unmodified — in particular the preceding deletion pass
removed nothing. -/
theorem C6_notfound_unmodified : ∀ (doc : List Block) (h : String) (t : Nat),
    trimmedB h.data = true →
    (insert_table_after_heading doc h t true).2 = false →
    (insert_table_after_heading doc h t true).1 = doc := by
  intro doc h t hh hfalse
  have hins : insert_table_after_heading doc h t true =
      (match insertAfterAnchor (possible_headings h) t
          (deleteLoop doc (possible_headings h)) with
        | none => (deleteLoop doc (possible_headings h), false)
        | some d2 => (d2, true)) := by
    simp [insert_table_after_heading]
  cases hanch : insertAfterAnchor (possible_headings h) t
      (deleteLoop doc (possible_headings h)) with
  | some d2 => rw [hins, hanch] at hfalse; simp at hfalse
  | none =>
    rw [hins, hanch]
    have hnone : findAnchorIdx (possible_headings h) (deleteLoop doc (possible_headings h)) =
        none := by
      have := hanch
      rw [insertAfterAnchor_eq] at this
      exact Option.map_eq_none'.mp this
    have hnomatch := findAnchorIdx_none _ _ hnone
    rcases deleteLoop_cases doc (possible_headings h) with heq | ⟨h', hmem, heq⟩
    · simpa using heq
    · exfalso
      obtain ⟨pre, p, mid, id, post, _, h2, h3, _, _⟩ :=
        delete_decomp doc h' (deleteLoop doc (possible_headings h)) heq
      have hpmem : Block.para p ∈ deleteLoop doc (possible_headings h) := by
        rw [h2]; simp
      have htrim := possible_headings_trimmed h hh h' hmem
      have hstr : containsSub h'.data (pyStrip p.data) = true :=
        containsSub_pyStrip_of_trimmed h'.data p.data htrim h3
      have hmatch : matchesAnyStripped (possible_headings h) (Block.para p) = true := by
        simp only [matchesAnyStripped, List.any_eq_true]
        exact ⟨h', hmem, hstr⟩
      rw [hnomatch (Block.para p) hpmem] at hmatch
      simp at hmatch

/-- Closed instance of `C6_notfound_unmodified`: a document with no matching
paragraph is returned exactly as given. -/
theorem C6_witness :
    (insert_table_after_heading [Block.tbl 0] "x" 5 true).1 = [Block.tbl 0] := by
  exact C6_notfound_unmodified [Block.tbl 0] "x" 5 (by decide) (by decide)

/-! ### Merge spans: code passes versus maximal-run spans -/

/-- Unfolding equation of `runSpans` on the empty list. -/
theorem runSpans_nil {K : Type} [DecidableEq K] (m : K → Bool) (rowIdx : Nat) :
    runSpans m [] rowIdx = [] := by
  rw [runSpans]

/-- Unfolding equation of `runSpans` on a nonempty list. -/
theorem runSpans_cons {K : Type} [DecidableEq K] (m : K → Bool) (s : K) (rest : List K)
    (rowIdx : Nat) :
    runSpans m (s :: rest) rowIdx =
      (if 0 < takeRun m s rest ∧ m s = true then
        [(rowIdx, 1 + takeRun m s rest)] else []) ++
      runSpans m (rest.drop (takeRun m s rest)) (rowIdx + 1 + takeRun m s rest) := by
  rw [runSpans]

/-- Joint invariant of the English run-tracking loop: with an open group of
`count` rows of key `v` (whose first row is `startIdx` and whose next row is
`rowIdx`), the remaining emissions are the open group extended by the
leading run of `v`, followed by the maximal-run spans of the remainder; and
starting a fresh group at `y` emits exactly the maximal-run spans of
`y :: rest`. -/
theorem englishAux_runs : ∀ (rest : List (Option Nat)),
    (∀ (v startIdx count rowIdx : ℕ), 1 ≤ count → rowIdx = startIdx + count →
      englishSpansAux rest (some v) startIdx count rowIdx =
        (if 1 < count + takeRun engMergeable (some v) rest then
          [(startIdx, count + takeRun engMergeable (some v) rest)] else []) ++
        runSpans engMergeable (rest.drop (takeRun engMergeable (some v) rest))
          (rowIdx + takeRun engMergeable (some v) rest)) ∧
    (∀ (y : Option ℕ) (rowIdx : ℕ),
      englishSpansAux rest y rowIdx 1 (rowIdx + 1) =
        runSpans engMergeable (y :: rest) rowIdx) := by
  intro rest
  induction rest with
  | nil =>
    constructor
    · intro v startIdx count rowIdx h1 h2
      simp [englishSpansAux, takeRun, runSpans_nil]
    · intro y rowIdx
      simp [englishSpansAux, takeRun, runSpans_cons, runSpans_nil]
  | cons y ys ih =>
    obtain ⟨ihA, ihB⟩ := ih
    constructor
    · intro v startIdx count rowIdx h1 h2
      by_cases hy : y = some v
      · subst hy
        rw [show englishSpansAux (some v :: ys) (some v) startIdx count rowIdx =
            englishSpansAux ys (some v) startIdx (count + 1) (rowIdx + 1) from by
          simp [englishSpansAux]]
        rw [ihA v startIdx (count + 1) (rowIdx + 1) (by omega) (by omega)]
        have htr : takeRun engMergeable (some v) (some v :: ys) =
            1 + takeRun engMergeable (some v) ys := by
          simp [takeRun, engMergeable]
        rw [htr]
        have e1 : count + (1 + takeRun engMergeable (some v) ys) =
            count + 1 + takeRun engMergeable (some v) ys := by omega
        have e2 : rowIdx + (1 + takeRun engMergeable (some v) ys) =
            rowIdx + 1 + takeRun engMergeable (some v) ys := by omega
        have e3 : (some v :: ys).drop (1 + takeRun engMergeable (some v) ys) =
            ys.drop (takeRun engMergeable (some v) ys) := by
          rw [show 1 + takeRun engMergeable (some v) ys =
              takeRun engMergeable (some v) ys + 1 from by omega, List.drop_succ_cons]
        rw [e1, e2, e3]
      · have hcond : ¬(y = some v ∧ y.isSome = true) := fun hcc => hy hcc.1
        have htr0 : takeRun engMergeable (some v) (y :: ys) = 0 := by
          simp [takeRun, engMergeable, hy]
        rw [show englishSpansAux (y :: ys) (some v) startIdx count rowIdx =
            (if 1 < count then [(startIdx, count)] else []) ++
              englishSpansAux ys y rowIdx 1 (rowIdx + 1) from by
          simp [englishSpansAux, hcond]]
        rw [ihB y rowIdx, htr0]
        simp
    · intro z rowIdx
      by_cases hc : y = z ∧ y.isSome = true
      · obtain ⟨rfl, hys⟩ := hc
        obtain ⟨v, rfl⟩ := Option.isSome_iff_exists.mp hys
        rw [show englishSpansAux (some v :: ys) (some v) rowIdx 1 (rowIdx + 1) =
            englishSpansAux ys (some v) rowIdx 2 (rowIdx + 2) from by
          simp [englishSpansAux]]
        rw [ihA v rowIdx 2 (rowIdx + 2) (by omega) (by omega)]
        rw [if_pos (show (1:ℕ) < 2 + takeRun engMergeable (some v) ys from by omega)]
        rw [runSpans_cons engMergeable (some v) (some v :: ys) rowIdx]
        have htr : takeRun engMergeable (some v) (some v :: ys) =
            1 + takeRun engMergeable (some v) ys := by
          simp [takeRun, engMergeable]
        rw [htr]
        rw [if_pos (show 0 < 1 + takeRun engMergeable (some v) ys ∧
            engMergeable (some v) = true from ⟨by omega, rfl⟩)]
        have e2 : 1 + (1 + takeRun engMergeable (some v) ys) =
            2 + takeRun engMergeable (some v) ys := by omega
        have e3 : (some v :: ys).drop (1 + takeRun engMergeable (some v) ys) =
            ys.drop (takeRun engMergeable (some v) ys) := by
          rw [show 1 + takeRun engMergeable (some v) ys =
              takeRun engMergeable (some v) ys + 1 from by omega, List.drop_succ_cons]
        have e4 : rowIdx + 1 + (1 + takeRun engMergeable (some v) ys) =
            rowIdx + 2 + takeRun engMergeable (some v) ys := by omega
        rw [e2, e3, e4]
      · have htr0 : takeRun engMergeable z (y :: ys) = 0 := by
          by_cases hyz : y = z
          · subst hyz
            have hns : ¬(y.isSome = true) := fun hh => hc ⟨rfl, hh⟩
            simp [takeRun, engMergeable, hns]
          · simp [takeRun, engMergeable, hyz]
        rw [show englishSpansAux (y :: ys) z rowIdx 1 (rowIdx + 1) =
            (if (1:ℕ) < 1 then [(rowIdx, 1)] else []) ++
              englishSpansAux ys y (rowIdx + 1) 1 (rowIdx + 1 + 1) from by
          simp [englishSpansAux, hc]]
        rw [ihB y (rowIdx + 1)]
        rw [runSpans_cons engMergeable z (y :: ys) rowIdx, htr0]
        simp

/-- The English builder's merge pass issues exactly the maximal-run spans:
for every input, `englishMergeSpans` equals `runSpans` over present keys. -/
theorem english_spans_runs : ∀ (data : List (Option Nat)),
    englishMergeSpans data = runSpans engMergeable data 1 := by
  intro data
  match data with
  | [] => simp [englishMergeSpans, runSpans_nil]
  | [x] => simp [englishMergeSpans, runSpans_cons, runSpans_nil, takeRun]
  | x :: y :: ys =>
    have hlen : 1 < (x :: y :: ys).length := by simp
    rw [englishMergeSpans, if_pos hlen]
    have hcond : ¬(x = none ∧ x.isSome = true) := by
      rintro ⟨rfl, hh⟩; simp at hh
    rw [show englishSpansAux (x :: y :: ys) none 1 0 1 =
        (if (1:ℕ) < 0 then [(1, 0)] else []) ++ englishSpansAux (y :: ys) x 1 1 2 from by
      simp [englishSpansAux, hcond]]
    rw [show (2:ℕ) = 1 + 1 from rfl, (englishAux_runs (y :: ys)).2 x 1]
    simp

/-- `countSeq` distributes over append. -/
theorem countSeq_append : ∀ (s : Nat) (l1 l2 : List Nat),
    countSeq s (l1 ++ l2) = countSeq s l1 + countSeq s l2 := by
  intro s l1 l2
  induction l1 with
  | nil => simp [countSeq]
  | cons x xs ih => simp [countSeq, ih]; omega

/-- Counting the replicated element itself. -/
theorem countSeq_replicate_self : ∀ (s k : Nat),
    countSeq s (List.replicate k s) = k := by
  intro s k
  induction k with
  | zero => rfl
  | succ k ih => simp [List.replicate_succ, countSeq, ih]; omega

/-- An absent element has count zero. -/
theorem countSeq_eq_zero_of_not_mem : ∀ (s : Nat) (l : List Nat),
    s ∉ l → countSeq s l = 0 := by
  intro s l
  induction l with
  | nil => intro _; rfl
  | cons x xs ih =>
    intro hs
    have hx : x ≠ s := fun hh => hs (by simp [hh])
    have hxs : s ∉ xs := fun hh => hs (by simp [hh])
    simp [countSeq, hx, ih hxs]

/-- A leading run below a foreign tail: `takeRun` counts exactly the
replicated block. -/
theorem takeRun_replicate : ∀ (k s : Nat) (rest : List Nat), s ∉ rest →
    takeRun cnMergeable s (List.replicate k s ++ rest) = k := by
  intro k s rest hrest
  induction k with
  | zero =>
    cases rest with
    | nil => rfl
    | cons r rs =>
      have hr : r ≠ s := fun hh => hrest (by simp [hh])
      simp [takeRun, cnMergeable, hr]
  | succ k ih => simp [List.replicate_succ, takeRun, cnMergeable, ih]; omega

/-- Rows whose sequence number was already handled are skipped, advancing
the row counter. -/
theorem chineseSkip : ∀ (k s : Nat) (rest total done : List Nat) (rowIdx : Nat),
    s ∈ done →
    chineseSpansAux total (List.replicate k s ++ rest) rowIdx done =
      chineseSpansAux total rest (rowIdx + k) done := by
  intro k
  induction k with
  | zero => intro s rest total done rowIdx _; simp
  | succ k ih =>
    intro s rest total done rowIdx hdone
    rw [List.replicate_succ, List.cons_append]
    rw [show chineseSpansAux total (s :: (List.replicate k s ++ rest)) rowIdx done =
        chineseSpansAux total (List.replicate k s ++ rest) (rowIdx + 1) done from by
      simp [chineseSpansAux, hdone]]
    rw [ih s rest total done (rowIdx + 1) hdone]
    rw [show rowIdx + 1 + k = rowIdx + (k + 1) from by omega]

/-- On grouped input whose keys are fresh and counted within itself, the
Chinese pass issues exactly the maximal-run spans. -/
theorem chineseAux_runs : ∀ (rest : List Nat), Grouped rest →
    ∀ (total done : List Nat) (rowIdx : Nat),
    (∀ x ∈ rest, x ∉ done) →
    (∀ x ∈ rest, countSeq x total = countSeq x rest) →
    chineseSpansAux total rest rowIdx done = runSpans cnMergeable rest rowIdx := by
  intro rest hg
  induction hg with
  | nil => intro total done rowIdx _ _; simp [chineseSpansAux, runSpans_nil]
  | cons s k rest' hk hnotmem hg' ih =>
    intro total done rowIdx hdone hcount
    obtain ⟨k', rfl⟩ : ∃ k', k = k' + 1 := ⟨k - 1, by omega⟩
    have hmem_s : s ∈ List.replicate (k' + 1) s ++ rest' := by
      simp [List.mem_append, List.mem_replicate]
    have hsdone : s ∉ done := hdone s hmem_s
    have hcs : countSeq s total = k' + 1 := by
      rw [hcount s hmem_s, countSeq_append, countSeq_replicate_self,
        countSeq_eq_zero_of_not_mem s rest' hnotmem]
    rw [List.replicate_succ, List.cons_append]
    rw [show chineseSpansAux total (s :: (List.replicate k' s ++ rest')) rowIdx done =
        (if 1 < countSeq s total then [(rowIdx, countSeq s total)] else []) ++
          chineseSpansAux total (List.replicate k' s ++ rest') (rowIdx + 1) (s :: done) from by
      simp [chineseSpansAux, hsdone]]
    rw [chineseSkip k' s rest' total (s :: done) (rowIdx + 1) (by simp)]
    have hdone' : ∀ x ∈ rest', x ∉ s :: done := by
      intro x hx
      have hxs : x ≠ s := fun hh => hnotmem (hh ▸ hx)
      have hxd : x ∉ done := hdone x (by simp [List.mem_append, hx])
      simp [hxs, hxd]
    have hcount' : ∀ x ∈ rest', countSeq x total = countSeq x rest' := by
      intro x hx
      have hxs : x ≠ s := fun hh => hnotmem (hh ▸ hx)
      rw [hcount x (by simp [List.mem_append, hx]), countSeq_append]
      have : countSeq x (List.replicate (k' + 1) s) = 0 :=
        countSeq_eq_zero_of_not_mem x _ (by simp [List.mem_replicate, hxs])
      omega
    rw [ih total (s :: done) (rowIdx + 1 + k') hdone' hcount']
    rw [runSpans_cons cnMergeable s (List.replicate k' s ++ rest') rowIdx]
    rw [takeRun_replicate k' s rest' hnotmem]
    have hdrop : (List.replicate k' s ++ rest').drop k' = rest' := by
      have hdl := List.drop_left (List.replicate k' s) rest'
      rwa [List.length_replicate] at hdl
    rw [hdrop, hcs]
    by_cases hk1 : 0 < k'
    · rw [if_pos (show (1:ℕ) < k' + 1 from by omega),
        if_pos (show 0 < k' ∧ cnMergeable s = true from ⟨hk1, rfl⟩),
        show 1 + k' = k' + 1 from by omega]
    · have hk0 : k' = 0 := by omega
      subst hk0
      simp

/-- `create_chinese_table`'s merge pass coincides with maximal-run merging
whenever equal sequence numbers are consecutive. -/
theorem chinese_spans_runs_of_grouped : ∀ (data : List Nat), Grouped data →
    chineseMergeSpans data = runSpans cnMergeable data 1 := by
  intro data hg
  exact chineseAux_runs data hg data [] 1 (by simp) (fun x _ => rfl)

/-- A lower bound can be relaxed. -/
theorem spansOrderedFrom_mono : ∀ (lo lo' : Nat) (l : List (Nat × Nat)), lo ≤ lo' →
    spansOrderedFrom lo' l → spansOrderedFrom lo l := by
  intro lo lo' l h hl
  cases l with
  | nil => trivial
  | cons sp rest => exact ⟨le_trans h hl.1, hl.2.1, hl.2.2⟩

/-- `runSpans` emits spans ordered from the starting row, with fuel. -/
theorem runSpans_ordered_aux : ∀ (n : Nat) {K : Type} [DecidableEq K] (m : K → Bool)
    (l : List K), l.length ≤ n → ∀ rowIdx, spansOrderedFrom rowIdx (runSpans m l rowIdx) := by
  intro n
  induction n with
  | zero =>
    intro K _ m l hl rowIdx
    have hnil : l = [] := List.length_eq_zero.mp (by omega)
    subst hnil
    simp [runSpans_nil, spansOrderedFrom]
  | succ n ih =>
    intro K _ m l hl rowIdx
    cases l with
    | nil => simp [runSpans_nil, spansOrderedFrom]
    | cons s rest =>
      rw [runSpans_cons]
      have hdrop : (rest.drop (takeRun m s rest)).length ≤ n := by
        have hld : (rest.drop (takeRun m s rest)).length =
            rest.length - takeRun m s rest := List.length_drop _ _
        have hlen : rest.length + 1 ≤ n + 1 := by simpa using hl
        omega
      have htail := ih m (rest.drop (takeRun m s rest)) hdrop (rowIdx + 1 + takeRun m s rest)
      by_cases hemit : 0 < takeRun m s rest ∧ m s = true
      · rw [if_pos hemit]
        refine ⟨le_refl _, by omega, ?_⟩
        rw [show rowIdx + (1 + takeRun m s rest) = rowIdx + 1 + takeRun m s rest from by omega]
        exact htail
      · rw [if_neg hemit]
        simp only [List.nil_append]
        exact spansOrderedFrom_mono rowIdx (rowIdx + 1 + takeRun m s rest) _ (by omega) htail

/-- `runSpans` emits spans ordered from the starting row. -/
theorem runSpans_ordered {K : Type} [DecidableEq K] (m : K → Bool) (l : List K)
    (rowIdx : Nat) : spansOrderedFrom rowIdx (runSpans m l rowIdx) :=
  runSpans_ordered_aux l.length m l (le_refl _) rowIdx

/-- Each span of an ordered list starts at or after the lower bound. -/
theorem spansOrderedFrom_lower : ∀ (l : List (Nat × Nat)) (lo : Nat),
    spansOrderedFrom lo l → ∀ sp ∈ l, lo ≤ sp.1 := by
  intro l
  induction l with
  | nil => intro lo _ sp hsp; simp at hsp
  | cons sq rest ih =>
    intro lo h sp hsp
    rcases List.mem_cons.mp hsp with rfl | hsp
    · exact h.1
    · have h1 := h.1
      have := ih (sq.1 + sq.2) h.2.2 sp hsp
      omega

/-- Ordered spans are pairwise non-overlapping. -/
theorem spansOrderedFrom_pairwise : ∀ (l : List (Nat × Nat)) (lo : Nat),
    spansOrderedFrom lo l →
    List.Pairwise (fun a b => ¬ spansOverlap a b) l := by
  intro l
  induction l with
  | nil => intro _ _; exact List.Pairwise.nil
  | cons sp rest ih =>
    intro lo h
    refine List.Pairwise.cons ?_ (ih (sp.1 + sp.2) h.2.2)
    intro sq hsq hover
    have hlow := spansOrderedFrom_lower rest (sp.1 + sp.2) h.2.2 sq hsq
    have h2 := hover.2
    omega

/-- C3 counterexample: on sequence keys `[1, 2, 1]` the maximal consecutive
runs all have length one, so the claimed policy merges nothing; the Chinese
builder nevertheless issues the span `(1, 2)` at the first occurrence of key
1 (its `merge_info` counts all occurrences in the whole list), merging data
rows 1 and 2 even though row 2 belongs to key 2. -/
theorem C3_cex :
    chineseMergeSpans [1, 2, 1] = [(1, 2)] ∧
    runSpans cnMergeable [1, 2, 1] 1 = [] := by
  constructor
  · decide
  · simp [runSpans_cons, runSpans_nil, takeRun, cnMergeable]

/-- C3 (amended): the English builder merges exactly across each maximal
run of consecutive records sharing a present sequence key; the Chinese
builder merges, at the first occurrence of each key, a block whose length is
the total number of records with that key, which coincides with the
maximal-run policy exactly on grouped input (equal keys consecutive). -/
theorem C3_merge_runs :
    (∀ (edata : List (Option Nat)),
      englishMergeSpans edata = runSpans engMergeable edata 1) ∧
    (∀ (data : List Nat), Grouped data →
      chineseMergeSpans data = runSpans cnMergeable data 1) :=
  ⟨english_spans_runs, chinese_spans_runs_of_grouped⟩

/-- Closed instance of `C3_merge_runs` at concrete grouped inputs. -/
theorem C3_witness :
    englishMergeSpans [some 1, some 1, some 2] =
      runSpans engMergeable [some 1, some 1, some 2] 1 ∧
    chineseMergeSpans [1, 1, 2] = runSpans cnMergeable [1, 1, 2] 1 := by
  constructor
  · exact C3_merge_runs.1 [some 1, some 1, some 2]
  · exact C3_merge_runs.2 [1, 1, 2]
      (Grouped.cons 1 2 [2] (by omega) (by simp)
        (Grouped.cons 2 1 [] (by omega) (by simp) Grouped.nil))

/-- C4 counterexample: on sequence keys `[1, 2, 1, 2]` the Chinese builder's
single merge pass issues the spans `(1, 2)` and `(2, 2)`, which overlap at
data row 2 — refuting "after the single merge pass no two vertical merge
spans overlap". -/
theorem C4_cex :
    chineseMergeSpans [1, 2, 1, 2] = [(1, 2), (2, 2)] ∧
    spansOverlap (1, 2) (2, 2) := by
  exact ⟨by decide, by norm_num, by norm_num⟩

/-- C4 (amended): after the single merge pass, the English builder's spans
never overlap, for every input; the Chinese builder's spans never overlap
provided equal sequence keys are consecutive (grouped input). -/
theorem C4_no_overlap :
    (∀ (edata : List (Option Nat)),
      List.Pairwise (fun a b => ¬ spansOverlap a b) (englishMergeSpans edata)) ∧
    (∀ (data : List Nat), Grouped data →
      List.Pairwise (fun a b => ¬ spansOverlap a b) (chineseMergeSpans data)) := by
  constructor
  · intro edata
    rw [english_spans_runs]
    exact spansOrderedFrom_pairwise _ 1 (runSpans_ordered engMergeable edata 1)
  · intro data hg
    rw [chinese_spans_runs_of_grouped data hg]
    exact spansOrderedFrom_pairwise _ 1 (runSpans_ordered cnMergeable data 1)

/-- Closed instance of `C4_no_overlap` at concrete inputs. -/
theorem C4_witness :
    List.Pairwise (fun a b => ¬ spansOverlap a b) (englishMergeSpans [some 1, some 1, none]) ∧
    List.Pairwise (fun a b => ¬ spansOverlap a b) (chineseMergeSpans [1, 1]) := by
  constructor
  · exact C4_no_overlap.1 [some 1, some 1, none]
  · exact C4_no_overlap.2 [1, 1]
      (Grouped.cons 1 2 [] (by omega) (by simp) Grouped.nil)

/-! ### Column widths (C5, C7) -/

/-- C5: evaluation at the failing input. The claim (and the docstring of
`calculate_text_width`) promises CJK-weighted widths for every string the
estimator measures, but `auto_fit_column_widths` calls
`calculate_text_width` with `is_chinese` left at its default `False`
(src/main.py:533,539), so the single CJK character `中` is measured as
`1 × 0.25 = 0.25` instead of the claimed `1 × 0.42`; with the CJK branch the
same call would return `0.42 ≈ 2 × 0.22`. The final conjunct evaluates the
estimator end to end on the header `"中"`: the resulting column width is
`0.25 + 0.5 = 0.75`, built from the uniform weight. -/
theorem C5_uniform_weight_used :
    calculate_text_width "中".data false = 1 / 4 ∧
    calculate_text_width "中".data true = 21 / 50 ∧
    ((1 : ℚ) / 4 ≠ 21 / 50) ∧
    auto_fit_column_widths ["中".data] [] [0] [10] 100 = [3 / 4] := by
  have hd : "中".data = ['中'] := rfl
  have hcjk : isCJK '中' = true := by decide
  have h1 : calculate_text_width "中".data false = 1 / 4 := by
    rw [calculate_text_width, hd]
    norm_num
  have h2 : calculate_text_width "中".data true = 21 / 50 := by
    rw [calculate_text_width, hd]
    simp only [List.filter, hcjk, List.length_cons, List.length_nil]
    norm_num
  have hpre : preScaleWidths ["中".data] [] [0] [10] = [3 / 4] := by
    rw [preScaleWidths, show List.range (["中".data] : List (List Char)).length = [0] from rfl]
    simp [h1]
    rw [max_eq_left (show (0:ℚ) ≤ 4⁻¹ + 2⁻¹ from by norm_num),
      min_eq_right (show (4⁻¹ + 2⁻¹ : ℚ) ≤ 10 from by norm_num)]
    norm_num
  have hsum : ([3 / 4] : List ℚ).sum = 3 / 4 := by simp
  have h4 : auto_fit_column_widths ["中".data] [] [0] [10] 100 = [3 / 4] := by
    rw [auto_fit_column_widths, hpre, hsum, if_neg (by norm_num)]
  exact ⟨h1, h2, by norm_num, h4⟩

/-- Entries of a `getD` lookup into a nonnegative list with nonnegative
default are nonnegative. -/
theorem getD_nonneg_q : ∀ (l : List ℚ) (i : Nat) (d : ℚ),
    (∀ q ∈ l, 0 ≤ q) → 0 ≤ d → 0 ≤ l.getD i d := by
  intro l
  induction l with
  | nil => intro i d _ hd; simpa [List.getD] using hd
  | cons x xs ih =>
    intro i d hq hd
    cases i with
    | zero => simpa using hq x (by simp)
    | succ i => simpa using ih i d (fun q hqq => hq q (by simp [hqq])) hd

/-- With nonnegative minimum widths, every pre-scale column width is
nonnegative. -/
theorem preScaleWidths_nonneg : ∀ (headers : List (List Char))
    (dataRows : List (List (List Char))) (minWidths maxWidths : List ℚ),
    (∀ q ∈ minWidths, 0 ≤ q) →
    ∀ w ∈ preScaleWidths headers dataRows minWidths maxWidths, 0 ≤ w := by
  intro headers dataRows minWidths maxWidths hmin w hw
  rw [preScaleWidths, List.mem_map] at hw
  obtain ⟨i, _, rfl⟩ := hw
  exact le_trans (getD_nonneg_q minWidths i 1 hmin (by norm_num)) (le_max_left _ _)

/-- Pointwise bounded maps, as `Forall₂`. -/
theorem forall2_map_le : ∀ (l : List ℚ) (f : ℚ → ℚ),
    (∀ x ∈ l, f x ≤ x) → List.Forall₂ (· ≤ ·) (l.map f) l := by
  intro l f
  induction l with
  | nil => intro _; exact List.Forall₂.nil
  | cons x xs ih =>
    intro h
    exact List.Forall₂.cons (h x (by simp)) (ih (fun y hy => h y (by simp [hy])))

/-- `Forall₂ (· ≤ ·)` is reflexive. -/
theorem forall2_le_refl : ∀ (l : List ℚ), List.Forall₂ (· ≤ ·) l l := by
  intro l
  induction l with
  | nil => exact List.Forall₂.nil
  | cons x xs ih => exact List.Forall₂.cons (le_refl x) ih

/-- C7: with a nonnegative budget and nonnegative minimum widths, every
final column width is at most its pre-scale (clamped) width; when the
pre-scale widths sum beyond the budget every column is multiplied by the
single ratio `totalBudget / sum`, and otherwise the widths are returned
untouched — no column is ever scaled up. -/
theorem C7_no_scale_up : ∀ (headers : List (List Char))
    (dataRows : List (List (List Char))) (minWidths maxWidths : List ℚ)
    (totalWidth : ℚ),
    0 ≤ totalWidth → (∀ q ∈ minWidths, 0 ≤ q) →
    List.Forall₂ (· ≤ ·)
      (auto_fit_column_widths headers dataRows minWidths maxWidths totalWidth)
      (preScaleWidths headers dataRows minWidths maxWidths) ∧
    (totalWidth < (preScaleWidths headers dataRows minWidths maxWidths).sum →
      auto_fit_column_widths headers dataRows minWidths maxWidths totalWidth =
        (preScaleWidths headers dataRows minWidths maxWidths).map
          (fun w => w * (totalWidth /
            (preScaleWidths headers dataRows minWidths maxWidths).sum))) ∧
    ((preScaleWidths headers dataRows minWidths maxWidths).sum ≤ totalWidth →
      auto_fit_column_widths headers dataRows minWidths maxWidths totalWidth =
        preScaleWidths headers dataRows minWidths maxWidths) := by
  intro headers dataRows minWidths maxWidths totalWidth htot hmin
  have hnonneg := preScaleWidths_nonneg headers dataRows minWidths maxWidths hmin
  by_cases hlt : totalWidth < (preScaleWidths headers dataRows minWidths maxWidths).sum
  · have heq : auto_fit_column_widths headers dataRows minWidths maxWidths totalWidth =
        (preScaleWidths headers dataRows minWidths maxWidths).map
          (fun w => w * (totalWidth /
            (preScaleWidths headers dataRows minWidths maxWidths).sum)) := by
      rw [auto_fit_column_widths, if_pos hlt]
    have hsumpos : 0 < (preScaleWidths headers dataRows minWidths maxWidths).sum :=
      lt_of_le_of_lt htot hlt
    have hscale : totalWidth /
        (preScaleWidths headers dataRows minWidths maxWidths).sum ≤ 1 :=
      (div_le_one hsumpos).mpr (le_of_lt hlt)
    refine ⟨?_, fun _ => heq, fun hle => absurd hlt (not_lt.mpr hle)⟩
    rw [heq]
    exact forall2_map_le _ _
      (fun x hx => mul_le_of_le_one_right (hnonneg x hx) hscale)
  · have heq : auto_fit_column_widths headers dataRows minWidths maxWidths totalWidth =
        preScaleWidths headers dataRows minWidths maxWidths := by
      rw [auto_fit_column_widths, if_neg hlt]
    exact ⟨heq ▸ forall2_le_refl _, fun hlt' => absurd hlt' hlt, fun _ => heq⟩

/-- Closed instance of `C7_no_scale_up` at a concrete input. -/
theorem C7_witness :
    List.Forall₂ (· ≤ ·)
      (auto_fit_column_widths [[Char.ofNat 97]] [] [1] [2] 0)
      (preScaleWidths [[Char.ofNat 97]] [] [1] [2]) :=
  (C7_no_scale_up [[Char.ofNat 97]] [] [1] [2] 0 (le_refl 0)
    (by intro q hq; simp at hq; rw [hq]; norm_num)).1

/-! ### LineClassifier (C8) -/

/-- Spec §8 scenario 1: a statistics-keyword line splits after the first
colon, keyword part bold. -/
theorem classify_scenario_stat :
    classify "人员投入：张三10人".data =
      ⟨.statKeyword, true, [("人员投入：".data, true), ("张三10人".data, false)]⟩ := by
  decide

/-- Spec §8 scenario 2: a numbered section heading is unindented and whole
line bold. -/
theorem classify_scenario_section :
    classify "1、右岸施工营地".data =
      ⟨.sectionHeading, false, [("1、右岸施工营地".data, true)]⟩ := by
  decide

/-- Spec §8 scenario 3: a parenthesized-number sub-item is indented and not
bold. -/
theorem classify_scenario_subitem :
    classify "(1) 场地精平".data =
      ⟨.subItem, true, [("(1) 场地精平".data, false)]⟩ := by
  decide

/-- C8: `classify` is a total function returning exactly one category, it
is idempotent (`classify x = classify x` on repeated calls), and it is
deterministic on the cleaned text: its category is a function of
`cleanLine` alone, so inputs with equal cleaned text classify equally. -/
theorem C8_classify_deterministic :
    (∀ x : List Char, classify x = classify x) ∧
    (∀ x : List Char, (classify x).category = categoryOf (cleanLine x)) ∧
    (∀ x y : List Char, cleanLine x = cleanLine y →
      (classify x).category = (classify y).category) := by
  have hcat : ∀ x : List Char, (classify x).category = categoryOf (cleanLine x) := by
    intro x
    cases h : categoryOf (cleanLine x) with
    | statKeyword =>
      simp only [classify, h]
      split <;> simp
    | sectionHeading => simp [classify, h]
    | subItem => simp [classify, h]
    | body => simp [classify, h]
  refine ⟨fun x => rfl, hcat, ?_⟩
  intro x y hxy
  rw [hcat x, hcat y, hxy]

/-- Closed instance of `C8_classify_deterministic`: `"a*"` and `"a"` clean
to the same text and receive the same category. -/
theorem C8_witness :
    (classify "a*".data).category = (classify "a".data).category :=
  C8_classify_deterministic.2.2 "a*".data "a".data (by decide)

end WordSvc
